import Mathlib

/-!
Verification of the session scheduling and aggregation engine of the
gym-scheduler page (src/app/page.tsx).

Modelling conventions:
* `generateId` draws fresh randomness on every call; it is modelled by an
  explicit id supply `gen : Nat → String`, indexed by the call number.
* The durable localStorage slot is modelled at the JSON-value level: the raw
  string is abstracted to `Blob.emptyString` (a falsy raw value),
  `Blob.corrupt` (a raw string on which JSON.parse throws), or
  `Blob.good l` (a raw string parsing to an array of session objects).
  `JSON.stringify` of a session list always yields a `good` blob that parses
  back to the same field values, since all fields are strings, numbers and
  booleans.
* JavaScript `Array.prototype.sort` is stable (ES2019); it is modelled by
  `List.insertionSort`, which is stable for the comparator order.
* `localeCompare` on fixed-width zero-padded `HH:MM` digit strings agrees
  with lexicographic string order, modelled by the lexicographic order on
  the character lists (`strLe`).
* The completion-rate arithmetic runs on IEEE binary64 numbers; it is
  modelled exactly: `fl64` is correct rounding of a rational to binary64
  (round-to-nearest-even on a 53-bit significand), applied after the
  division and after the multiplication, and `Math.round` is the exact
  round-half-up (ties toward positive infinity) of the double's value,
  modelled by Mathlib's `round` on `ℚ`.
-/

namespace GymScheduler

inductive TrainingFocus where
  | Strength
  | Hypertrophy
  | Conditioning
  | Mobility
  | Skill
  | Recovery
deriving DecidableEq

inductive Intensity where
  | Low
  | Medium
  | High
deriving DecidableEq

inductive DayKey where
  | Monday
  | Tuesday
  | Wednesday
  | Thursday
  | Friday
  | Saturday
  | Sunday
deriving DecidableEq

/-- The `Session` record of src/app/page.tsx (lines 17-28).  `notes` is an
optional field in the TypeScript type, hence `Option String`. -/
structure Session where
  id : String
  name : String
  focus : TrainingFocus
  intensity : Intensity
  day : DayKey
  start : String
  duration : Nat
  location : String
  notes : Option String
  completed : Bool
deriving DecidableEq

/-- A draft is a `Session` without its `id` (the form payload type
`Omit Session id`). -/
structure Draft where
  name : String
  focus : TrainingFocus
  intensity : Intensity
  day : DayKey
  start : String
  duration : Nat
  location : String
  notes : Option String
  completed : Bool
deriving DecidableEq

def mkSession (i : String) (d : Draft) : Session :=
  { id := i, name := d.name, focus := d.focus, intensity := d.intensity,
    day := d.day, start := d.start, duration := d.duration,
    location := d.location, notes := d.notes, completed := d.completed }

/-- Forget the `id` of a session (the deterministic part of a session). -/
def stripId (s : Session) : Draft :=
  { name := s.name, focus := s.focus, intensity := s.intensity,
    day := s.day, start := s.start, duration := s.duration,
    location := s.location, notes := s.notes, completed := s.completed }

/-- `DAYS` (lines 41-49): the fixed Monday-first day order. -/
def DAYS : List DayKey :=
  [.Monday, .Tuesday, .Wednesday, .Thursday, .Friday, .Saturday, .Sunday]

/-- `TRAINING_FOCI` (lines 51-58): the fixed focus enumeration order. -/
def TRAINING_FOCI : List TrainingFocus :=
  [.Strength, .Hypertrophy, .Conditioning, .Mobility, .Skill, .Recovery]

/-- Index of a day in the fixed Monday-first order (`DAYS.indexOf`). -/
def dayIdx : DayKey → Nat
  | .Monday => 0
  | .Tuesday => 1
  | .Wednesday => 2
  | .Thursday => 3
  | .Friday => 4
  | .Saturday => 5
  | .Sunday => 6

/-- A session template: `Pick Session (name focus intensity duration notes
location)` (lines 62-67). -/
structure Template where
  name : String
  focus : TrainingFocus
  intensity : Intensity
  duration : Nat
  location : String
  notes : Option String
deriving DecidableEq

/-- `SESSION_TEMPLATES` (lines 62-122): the fixed catalog of 6 templates. -/
def SESSION_TEMPLATES : List Template :=
  [ { name := "Lower Body Power", focus := .Strength, intensity := .High,
      duration := 75, location := "Main Weight Room",
      notes := some "Hang power cleans, front squats, speed deadlifts, sled pushes. Finish with core anti-rotation." },
    { name := "Upper Body Push-Pull", focus := .Hypertrophy, intensity := .Medium,
      duration := 65, location := "Training Floor",
      notes := some "Superset incline bench + chest-supported rows. Giant set shoulders + arms. Finish with accessory chest/back." },
    { name := "Tempo Run + Intervals", focus := .Conditioning, intensity := .High,
      duration := 50, location := "Track / Treadmill",
      notes := some "10 min build, 3x8 min @ goal pace with 2 min float, finish with 6x30s hard sprints." },
    { name := "Controlled Mobility Flow", focus := .Mobility, intensity := .Low,
      duration := 40, location := "Studio B",
      notes := some "CARS sequence, dynamic hip openers, thoracic rotation work, loaded carries for range control." },
    { name := "Olympic Lifting Technique", focus := .Skill, intensity := .Medium,
      duration := 55, location := "Platform Area",
      notes := some "Snatch technical ladder, pause variations, jerk footwork, pulls with tempo focus." },
    { name := "Active Recovery Ride", focus := .Recovery, intensity := .Low,
      duration := 35, location := "Spin Room",
      notes := some "Zone 2 spin, breathing drills, finish with light band work and foam rolling." } ]

/-- The day sequence local to `suggestBalancedWeek` (lines 181-189). -/
def daysSequence : List DayKey :=
  [.Monday, .Tuesday, .Wednesday, .Thursday, .Friday, .Saturday, .Sunday]

/-- The start-time sequence local to `suggestBalancedWeek` (line 190). -/
def baseTimes : List String :=
  ["06:30", "07:00", "18:00", "09:00", "08:30", "10:00"]

/-- The session built for template number `i` by `suggestBalancedWeek`
(lines 191-197): fresh id, day and start by index, `completed := false`,
template fields spread last. -/
def seedSession (gen : Nat → String) (i : Nat) (t : Template) : Session :=
  { id := gen i,
    day := daysSequence.getD (i % daysSequence.length) .Monday,
    start := baseTimes.getD (i % baseTimes.length) "",
    completed := false,
    name := t.name, focus := t.focus, intensity := t.intensity,
    duration := t.duration, location := t.location, notes := t.notes }

/-- The indexed map underlying `suggestBalancedWeek`. -/
def seedList (gen : Nat → String) : Nat → List Template → List Session
  | _, [] => []
  | i, t :: ts => seedSession gen i t :: seedList gen (i + 1) ts

/-- `suggestBalancedWeek` (lines 180-198): the Balance Seeder.  `gen` is the
id supply consumed by the `generateId()` calls. -/
def suggestBalancedWeek (gen : Nat → String) : List Session :=
  seedList gen 0 (SESSION_TEMPLATES.take 6)

/-- A parsed stored session object: `id` may be missing and `completed` may
be missing or a boolean (it is passed through `Boolean(...)` on load). -/
structure RawSession where
  id : Option String
  name : String
  focus : TrainingFocus
  intensity : Intensity
  day : DayKey
  start : String
  duration : Nat
  location : String
  notes : Option String
  completed : Option Bool
deriving DecidableEq

/-- `JSON.stringify` of one session, at the JSON-value level. -/
def toRaw (s : Session) : RawSession :=
  { id := some s.id, name := s.name, focus := s.focus,
    intensity := s.intensity, day := s.day, start := s.start,
    duration := s.duration, location := s.location, notes := s.notes,
    completed := some s.completed }

/-- The per-element normalisation of `loadSessions` (lines 169-173):
`id: session.id ?? generateId()`, `completed: Boolean(session.completed)`. -/
def normalizeRaw (fresh : String) (r : RawSession) : Session :=
  { id := r.id.getD fresh, name := r.name, focus := r.focus,
    intensity := r.intensity, day := r.day, start := r.start,
    duration := r.duration, location := r.location, notes := r.notes,
    completed := r.completed.getD false }

/-- The map of `loadSessions` over the parsed array, consuming one fresh id
per element with a missing id (indexed id supply). -/
def normalizeList (gen : Nat → String) : Nat → List RawSession → List Session
  | _, [] => []
  | i, r :: rs => normalizeRaw (gen i) r :: normalizeList gen (i + 1) rs

/-- The raw content of the durable slot, abstracted to the JSON level:
a falsy raw string, a string JSON.parse throws on, or a parsed array. -/
inductive Blob where
  | emptyString
  | corrupt
  | good (l : List RawSession)
deriving DecidableEq

/-- `JSON.stringify` of a session list, at the JSON-value level. -/
def serialize (s : List Session) : Blob :=
  .good (s.map toRaw)

/-- `loadSessions` (lines 158-178): absent or falsy raw value, or a parse
failure, falls back to the seeded default week; otherwise the parsed array
is normalised element-wise. -/
def loadSessions (slot : Option Blob) (gen : Nat → String) : List Session :=
  match slot with
  | none => suggestBalancedWeek gen
  | some .emptyString => suggestBalancedWeek gen
  | some .corrupt => suggestBalancedWeek gen
  | some (.good l) => normalizeList gen 0 l

/-- `saveSessions` (lines 200-205): unconditionally writes the serialized
collection; modelled as the new slot content. -/
def saveSessions (s : List Session) : Option Blob :=
  some (serialize s)

/-- The persistence effect (lines 234-243): an empty collection removes the
stored key, a non-empty one is saved via `saveSessions`. -/
def persistSlot (s : List Session) : Option Blob :=
  if s.isEmpty then none else saveSessions s

/-- `localeCompare` on the fixed-width `HH:MM` strings is lexicographic
comparison of the character sequences. -/
def strLe (a b : String) : Prop :=
  a.data ≤ b.data

instance : DecidableRel strLe := by
  intro a b
  unfold strLe
  infer_instance

/-- The comparator of `handleSubmit` (lines 301-306) as a relation:
`a` sorts no later than `b` iff its day index is smaller, or the days are
equal and `a.start` is lexicographically no later than `b.start`. -/
def sessLe (a b : Session) : Prop :=
  dayIdx a.day < dayIdx b.day ∨ (a.day = b.day ∧ strLe a.start b.start)

instance : DecidableRel sessLe := by
  intro a b
  unfold sessLe
  infer_instance

/-- The inner comparator of `byDay` (line 250): start times only. -/
def startLe (a b : Session) : Prop :=
  strLe a.start b.start

instance : DecidableRel startLe := by
  intro a b
  unfold startLe
  infer_instance

lemma strLe_total (a b : String) : strLe a b ∨ strLe b a :=
  le_total a.data b.data

lemma strLe_trans {a b c : String} (h1 : strLe a b) (h2 : strLe b c) :
    strLe a c :=
  le_trans h1 h2

instance : IsTotal Session sessLe := by
  constructor
  intro a b
  rcases Nat.lt_trichotomy (dayIdx a.day) (dayIdx b.day) with h | h | h
  · exact Or.inl (Or.inl h)
  · have hd : a.day = b.day := by
      revert h
      cases a.day <;> cases b.day <;> simp [dayIdx]
    rcases strLe_total a.start b.start with hs | hs
    · exact Or.inl (Or.inr ⟨hd, hs⟩)
    · exact Or.inr (Or.inr ⟨hd.symm, hs⟩)
  · exact Or.inr (Or.inl h)

instance : IsTrans Session sessLe := by
  constructor
  intro a b c hab hbc
  rcases hab with h1 | ⟨hd1, hs1⟩
  · rcases hbc with h2 | ⟨hd2, _⟩
    · exact Or.inl (h1.trans h2)
    · exact Or.inl (hd2 ▸ h1)
  · rcases hbc with h2 | ⟨hd2, hs2⟩
    · exact Or.inl (hd1 ▸ h2)
    · exact Or.inr ⟨hd1.trans hd2, strLe_trans hs1 hs2⟩

instance : IsTotal Session startLe := by
  constructor
  intro a b
  exact strLe_total a.start b.start

instance : IsTrans Session startLe := by
  constructor
  intro a b c hab hbc
  exact strLe_trans hab hbc

/-- The `.sort` call of `handleSubmit` (lines 301-306), modelled by the
stable `insertionSort`. -/
def sortSessions (s : List Session) : List Session :=
  s.insertionSort sessLe

/-- The create branch of `handleSubmit` (lines 289-309): append the payload,
then sort. -/
def submitCreate (gid : String) (d : Draft) (s : List Session) : List Session :=
  sortSessions (s ++ [mkSession gid d])

/-- The update branch of `handleSubmit`: the payload spread replaces every
field of the matching session except that `id` stays `editingId`; then
sort. -/
def submitUpdate (eid : String) (d : Draft) (s : List Session) : List Session :=
  sortSessions (s.map fun x => if x.id = eid then mkSession eid d else x)

/-- `handleDelete` (lines 321-326): filter out the matching id. -/
def handleDelete (i : String) (s : List Session) : List Session :=
  s.filter fun x => x.id ≠ i

/-- `toggleCompleted` (lines 328-339): flip `completed` on the matching id. -/
def toggleCompleted (i : String) (s : List Session) : List Session :=
  s.map fun x => if x.id = i then { x with completed := !x.completed } else x

/-- The per-day bucket of `byDay` (lines 245-252): filter by day, sort by
start time. -/
def dayBucket (s : List Session) (d : DayKey) : List Session :=
  (s.filter fun x => x.day = d).insertionSort startLe

/-- `byDay` (lines 245-252): one entry per weekday in `DAYS` order. -/
def byDay (s : List Session) : List (DayKey × List Session) :=
  DAYS.map fun d => (d, dayBucket s d)

/-- `weeklyMinutes` (lines 269-272): sum of durations. -/
def weeklyMinutes (s : List Session) : Nat :=
  (s.map fun x => x.duration).sum

/-- `focusVolume` (lines 254-267): per focus, total planned minutes and
total completed minutes. -/
def focusVolume (s : List Session) : List (TrainingFocus × Nat × Nat) :=
  TRAINING_FOCI.map fun f =>
    (f, weeklyMinutes (s.filter fun x => x.focus = f),
     weeklyMinutes (s.filter fun x => x.focus = f ∧ x.completed))

/-- Number of completed sessions. -/
def completedCount (s : List Session) : Nat :=
  (s.filter fun x => x.completed).length

/-- Round a rational to the nearest integer, ties to even: the IEEE 754
round-to-nearest-even rule applied to an exactly scaled significand. -/
def rne (x : ℚ) : ℤ :=
  if x - ⌊x⌋ < 1/2 then ⌊x⌋
  else if (1/2 : ℚ) < x - ⌊x⌋ then ⌊x⌋ + 1
  else if ⌊x⌋ % 2 = 0 then ⌊x⌋ else ⌊x⌋ + 1

/-- Correct rounding of a rational to IEEE binary64: scale into the binade
`[2^52, 2^53)` using the floor base-2 logarithm, round the significand to
nearest-even, and scale back.  Non-positive inputs (only 0 arises here) map
to 0; the model covers the positive normal range, which contains every
value of the completion-rate computation. -/
def fl64 (q : ℚ) : ℚ :=
  if q ≤ 0 then 0
  else (rne (q * (2:ℚ) ^ (52 - Int.log 2 q)) : ℚ) * (2:ℚ) ^ (Int.log 2 q - 52)

/-- The Completion Rate display (lines 376-386):
`sessions.length ? Math.round((completed / total) * 100) : 0`, with the
division and the multiplication each correctly rounded to binary64 as
JavaScript numbers are, and `Math.round` the exact round-half-up (ties
toward positive infinity) of the resulting double's value. -/
def completionRate (s : List Session) : ℤ :=
  if s.length = 0 then 0
  else round (fl64 (fl64 ((completedCount s : ℚ) / (s.length : ℚ)) * 100))

/-- Value of one decimal digit character. -/
def digitVal (c : Char) : Nat :=
  c.toNat - 48

/-- Parse a strict `HH:MM` 24-hour string to minutes after midnight. -/
def parseHHMM (s : String) : Option Nat :=
  match s.data with
  | [h1, h2, c, m1, m2] =>
    if h1.isDigit ∧ h2.isDigit ∧ c = ':' ∧ m1.isDigit ∧ m2.isDigit then
      let hv := 10 * digitVal h1 + digitVal h2
      let mv := 10 * digitVal m1 + digitVal m2
      if hv < 24 ∧ mv < 60 then some (60 * hv + mv) else none
    else none
  | _ => none

/-- Zero-pad a number below 100 to two digits. -/
def two (n : Nat) : String :=
  if n < 10 then "0" ++ toString n else toString n

/-- Format minutes after midnight as `HH:MM` (the `format("HH:mm")` of
`getEndTime`). -/
def fmtHHMM (m : Nat) : String :=
  two (m / 60 % 24) ++ ":" ++ two (m % 60)

/-- `getEndTime` (lines 219-221): parse the start as a time on a fixed day,
add `duration` minutes, format the resulting time of day.  Adding minutes
and formatting `HH:mm` is wall-clock addition modulo 1440 minutes. -/
def getEndTime (start : String) (duration : Nat) : Option String :=
  (parseHHMM start).map fun t => fmtHHMM ((t + duration) % 1440)

/-- The store-visible state: the in-memory collection and the durable slot. -/
structure StoreState where
  sessions : List Session
  slot : Option Blob
deriving DecidableEq

/-- State after a mutator produced collection `s`: React re-runs the
persistence effect (lines 234-243) on the new collection. -/
def afterOp (s : List Session) : StoreState :=
  { sessions := s, slot := persistSlot s }

/-- One store operation: the mutators of the page plus the initial load,
each followed by the persistence effect. -/
inductive Step : StoreState → StoreState → Prop where
  | create (st : StoreState) (gid : String) (d : Draft) :
      Step st (afterOp (submitCreate gid d st.sessions))
  | update (st : StoreState) (eid : String) (d : Draft) :
      Step st (afterOp (submitUpdate eid d st.sessions))
  | remove (st : StoreState) (i : String) :
      Step st (afterOp (handleDelete i st.sessions))
  | toggle (st : StoreState) (i : String) :
      Step st (afterOp (toggleCompleted i st.sessions))
  | replaceAll (st : StoreState) (gen : Nat → String) :
      Step st (afterOp (suggestBalancedWeek gen))
  | load (st : StoreState) (gen : Nat → String) :
      Step st (afterOp (loadSessions st.slot gen))

/-- The collection is sorted by `(day index, start)` in the comparator
order. -/
def SortedSessions (s : List Session) : Prop :=
  s.Sorted sessLe

/-- The durable slot is either empty, unparseable, or holds the serialized
form of a sorted collection (which is all the app itself ever writes). -/
def SlotInv : Option Blob → Prop
  | none => True
  | some .emptyString => True
  | some .corrupt => True
  | some (.good l) => ∃ m, SortedSessions m ∧ l = m.map toRaw

/-- The store invariant. -/
def Inv (st : StoreState) : Prop :=
  SortedSessions st.sessions ∧ SlotInv st.slot

/-- An initial app state: no sessions in memory yet, and a durable slot the
app has not written (absent, falsy, or corrupt). -/
def InitState (st : StoreState) : Prop :=
  st.sessions = [] ∧
    (st.slot = none ∨ st.slot = some .emptyString ∨ st.slot = some .corrupt)

/-- Reachability by store operations from an initial state. -/
def Reachable (st : StoreState) : Prop :=
  ∃ st0, InitState st0 ∧ Relation.ReflTransGen Step st0 st

/-- A concrete session used to instantiate hypotheses of the theorems. -/
def demoSession : Session :=
  { id := "s1", name := "Demo Strength", focus := .Strength,
    intensity := .Low, day := .Tuesday, start := "08:00", duration := 45,
    location := "Gym", notes := none, completed := true }

/-- A concrete draft used to instantiate hypotheses of the theorems. -/
def demoDraft : Draft :=
  { name := "Untitled Session", focus := .Strength, intensity := .Medium,
    day := .Monday, start := "07:00", duration := 60,
    location := "Main Floor", notes := some "", completed := false }

lemma normalizeRaw_toRaw (f : String) (x : Session) :
    normalizeRaw f (toRaw x) = x :=
  rfl

lemma normalizeList_map_toRaw (gen : Nat → String) :
    ∀ (i : Nat) (m : List Session), normalizeList gen i (m.map toRaw) = m := by
  intro i m
  induction m generalizing i with
  | nil => rfl
  | cons x t ih => simp [normalizeList, normalizeRaw_toRaw, ih]

lemma normalizeList_length (gen : Nat → String) :
    ∀ (i : Nat) (l : List RawSession),
      (normalizeList gen i l).length = l.length := by
  intro i l
  induction l generalizing i with
  | nil => rfl
  | cons r rs ih => simp [normalizeList, ih]

/-- Claim C2: persisting a well-formed collection and loading it back
reproduces the collection; persisting the empty collection loads as the
seeded default week (the one intentional non-identity case). -/
theorem claim_C2_roundtrip (s : List Session) (gen : Nat → String) :
    loadSessions (persistSlot s) gen =
      if s.isEmpty then suggestBalancedWeek gen else s := by
  cases s with
  | nil => rfl
  | cons x t =>
    simp only [persistSlot, List.isEmpty_cons, if_neg, Bool.false_eq_true,
      not_false_eq_true, reduceIte, saveSessions, serialize, loadSessions]
    exact normalizeList_map_toRaw gen 0 (x :: t)

/-- Claim C3: the persistence path clears the durable slot for the empty
collection instead of writing a serialized empty collection, and saves the
serialized collection whenever it is non-empty. -/
theorem claim_C3_empty_clears_slot :
    persistSlot [] = none ∧
      ∀ s : List Session, s ≠ [] → persistSlot s = some (serialize s) := by
  constructor
  · rfl
  · intro s hs
    simp [persistSlot, saveSessions, List.isEmpty_iff, hs]

theorem claim_C3_empty_clears_slot_witness :
    [demoSession] ≠ ([] : List Session) ∧
      persistSlot [demoSession] = some (serialize [demoSession]) :=
  ⟨by decide, claim_C3_empty_clears_slot.2 [demoSession] (by decide)⟩

/-- Claim C4 fails as stated: the Balance Seeder draws a fresh id from the
id supply for every session on every call, so two calls with different id
supplies return different `Session` values (the ids differ). -/
theorem claim_C4_counterexample :
    suggestBalancedWeek (fun _ => "a") ≠ suggestBalancedWeek (fun _ => "b") := by
  decide

/-- Claim C4 (amended): the Balance Seeder is deterministic in every field
except `id`: any two calls return the same 6-session starter week up to the
freshly generated ids. -/
theorem claim_C4_deterministic_up_to_ids (g1 g2 : Nat → String) :
    (suggestBalancedWeek g1).map stripId = (suggestBalancedWeek g2).map stripId ∧
      (suggestBalancedWeek g1).length = 6 :=
  ⟨rfl, rfl⟩

/-- Claim C8: on a valid `HH:MM` start, `getEndTime` adds the duration
modulo 1440 minutes and never fails; in particular it wraps `23:30` plus
90 minutes to `01:00`. -/
theorem claim_C8_endTime (start : String) (dur t : Nat)
    (h : parseHHMM start = some t) :
    getEndTime start dur = some (fmtHHMM ((t + dur) % 1440)) ∧
      (getEndTime start dur).isSome = true ∧
      getEndTime "23:30" 90 = some "01:00" := by
  refine ⟨?_, ?_, ?_⟩
  · simp [getEndTime, h]
  · simp [getEndTime, h]
  · decide

theorem claim_C8_endTime_witness :
    parseHHMM "23:30" = some 1410 ∧
      getEndTime "23:30" 90 = some (fmtHHMM ((1410 + 90) % 1440)) ∧
      getEndTime "23:30" 90 = some "01:00" := by
  have h := claim_C8_endTime "23:30" 90 1410 (by decide)
  exact ⟨by decide, h.1, h.2.2⟩

/-- Claim C10: `loadSessions` falls back to the default week exactly for an
absent slot, a falsy raw value, or a parse failure; a stored empty array
loads as the empty collection, and a parsed array is normalised
element-wise (missing ids back-filled, `completed` coerced to a boolean)
without failing. -/
theorem claim_C10_load_fallback (gen : Nat → String) (l : List RawSession)
    (f : String) (r : RawSession) :
    loadSessions none gen = suggestBalancedWeek gen ∧
      loadSessions (some .emptyString) gen = suggestBalancedWeek gen ∧
      loadSessions (some .corrupt) gen = suggestBalancedWeek gen ∧
      loadSessions (some (.good [])) gen = [] ∧
      (suggestBalancedWeek gen).length = 6 ∧
      loadSessions (some (.good l)) gen = normalizeList gen 0 l ∧
      (normalizeList gen 0 l).length = l.length ∧
      (normalizeRaw f r).id = r.id.getD f ∧
      (normalizeRaw f r).completed = r.completed.getD false ∧
      (normalizeRaw f r).day = r.day ∧
      (normalizeRaw f r).start = r.start ∧
      (normalizeRaw f r).duration = r.duration := by
  refine ⟨rfl, rfl, rfl, rfl, rfl, rfl, normalizeList_length gen 0 l,
    rfl, rfl, rfl, rfl, rfl⟩

lemma weeklyMinutes_nil : weeklyMinutes [] = 0 :=
  rfl

lemma weeklyMinutes_cons (x : Session) (t : List Session) :
    weeklyMinutes (x :: t) = x.duration + weeklyMinutes t := by
  simp [weeklyMinutes]

lemma focus_partition_sum (s : List Session) :
    (TRAINING_FOCI.map fun f =>
        weeklyMinutes (s.filter fun x => x.focus = f)).sum =
      weeklyMinutes s := by
  induction s with
  | nil => rfl
  | cons x t ih =>
    simp only [TRAINING_FOCI, List.map_cons, List.map_nil, List.sum_cons,
      List.sum_nil, List.filter_cons] at ih ⊢
    cases hx : x.focus <;>
      simp only [hx, decide_eq_true_eq, reduceCtorEq, reduceIte,
        weeklyMinutes_cons, decide_True, decide_False, if_true, if_false] <;>
      omega

/-- Claim C6: `focusVolume` has one entry per focus in the fixed
six-category order, and the entry totals sum to `weeklyMinutes`, which is 0
on the empty collection. -/
theorem claim_C6_focusVolume_total (s : List Session) :
    (focusVolume s).map Prod.fst = TRAINING_FOCI ∧
      (focusVolume s).length = 6 ∧
      ((focusVolume s).map fun e => e.2.1).sum = weeklyMinutes s ∧
      weeklyMinutes [] = 0 := by
  refine ⟨?_, ?_, ?_, rfl⟩
  · simp [focusVolume, Function.comp_def]
  · simp [focusVolume, TRAINING_FOCI]
  · have h := focus_partition_sum s
    simpa [focusVolume, List.map_map, Function.comp] using h

lemma completedCount_le_length (s : List Session) :
    completedCount s ≤ s.length :=
  List.length_filter_le _ s

lemma completionRate_nil : completionRate [] = 0 :=
  rfl

lemma rne_le (x : ℚ) : (rne x : ℚ) ≤ x + 1/2 := by
  have hfl : (⌊x⌋ : ℚ) ≤ x := Int.floor_le x
  unfold rne
  split
  · linarith
  · rename_i h1
    push_neg at h1
    split
    · push_cast
      linarith
    · split
      · linarith
      · push_cast
        linarith

lemma rne_ge (x : ℚ) : x - 1/2 ≤ (rne x : ℚ) := by
  have hfl : (⌊x⌋ : ℚ) ≤ x := Int.floor_le x
  have hfu : x < ⌊x⌋ + 1 := Int.lt_floor_add_one x
  unfold rne
  split
  · rename_i h1
    linarith
  · rename_i h1
    push_neg at h1
    split
    · push_cast
      linarith
    · split
      · linarith
      · push_cast
        linarith

lemma rne_intCast (m : ℤ) : rne (m : ℚ) = m := by
  unfold rne
  rw [Int.floor_intCast, if_pos (by rw [sub_self]; norm_num : ((m:ℚ) - m < 1/2))]

lemma rne_eval (x : ℚ) (f : ℤ) (hle : (f : ℚ) ≤ x) (hlt : x - f < 1/2) :
    rne x = f := by
  have hfl : ⌊x⌋ = f := Int.floor_eq_iff.mpr ⟨hle, by linarith⟩
  unfold rne
  rw [hfl, if_pos hlt]

lemma log2q_unique (q : ℚ) (e : ℤ) (h1 : (2:ℚ)^e ≤ q) (h2 : q < (2:ℚ)^(e+1)) :
    Int.log 2 q = e := by
  have hq : 0 < q := lt_of_lt_of_le (by positivity) h1
  have hl : ((2:ℕ):ℚ) ^ Int.log 2 q ≤ q := Int.zpow_log_le_self one_lt_two hq
  have hu : q < ((2:ℕ):ℚ) ^ (Int.log 2 q + 1) :=
    Int.lt_zpow_succ_log_self one_lt_two q
  have hcast : ((2:ℕ):ℚ) = (2:ℚ) := by norm_num
  rw [hcast] at hl hu
  have p1 : Int.log 2 q < e + 1 :=
    (zpow_lt_zpow_iff_right₀ one_lt_two).mp (lt_of_le_of_lt hl h2)
  have p2 : e < Int.log 2 q + 1 :=
    (zpow_lt_zpow_iff_right₀ one_lt_two).mp (lt_of_le_of_lt h1 hu)
  omega

lemma zpow_cancel (e : ℤ) : (2:ℚ)^(52 - e) * (2:ℚ)^(e - 52) = 1 := by
  rw [← zpow_add₀ (by norm_num : (2:ℚ) ≠ 0)]
  have h : 52 - e + (e - 52) = 0 := by ring
  rw [h, zpow_zero]

lemma fl64_spec (q : ℚ) (h0 : 0 < q) :
    fl64 q =
      (rne (q * (2:ℚ)^(52 - Int.log 2 q)) : ℚ) * (2:ℚ)^(Int.log 2 q - 52) := by
  unfold fl64
  rw [if_neg (not_le.mpr h0)]

lemma fl64_eval (q : ℚ) (e m : ℤ) (h0 : 0 < q) (he : Int.log 2 q = e)
    (hm : rne (q * (2:ℚ)^(52 - e)) = m) :
    fl64 q = (m : ℚ) * (2:ℚ)^(e - 52) := by
  rw [fl64_spec q h0, he, hm]

lemma fl64_nonpos (q : ℚ) (h : q ≤ 0) : fl64 q = 0 := by
  unfold fl64
  rw [if_pos h]

lemma fl64_nonneg (q : ℚ) : 0 ≤ fl64 q := by
  rcases le_or_lt q 0 with h | h
  · rw [fl64_nonpos q h]
  · rw [fl64_spec q h]
    have h2 := rne_ge (q * (2:ℚ)^(52 - Int.log 2 q))
    have hx : (0:ℚ) < q * (2:ℚ)^(52 - Int.log 2 q) := by positivity
    have h3 : (-1 : ℤ) < rne (q * (2:ℚ)^(52 - Int.log 2 q)) := by
      have h4 : (-1 : ℚ) < (rne (q * (2:ℚ)^(52 - Int.log 2 q)) : ℚ) := by linarith
      exact_mod_cast h4
    have h5 : (0:ℚ) ≤ (rne (q * (2:ℚ)^(52 - Int.log 2 q)) : ℚ) := by
      exact_mod_cast (by omega : (0:ℤ) ≤ rne (q * (2:ℚ)^(52 - Int.log 2 q)))
    exact mul_nonneg h5 (by positivity)

lemma fl64_pos (q : ℚ) (h0 : 0 < q) : 0 < fl64 q := by
  have hl : ((2:ℕ):ℚ) ^ Int.log 2 q ≤ q := Int.zpow_log_le_self one_lt_two h0
  have hcast : ((2:ℕ):ℚ) = (2:ℚ) := by norm_num
  rw [hcast] at hl
  have hx1 : (2:ℚ)^(Int.log 2 q) * (2:ℚ)^(52 - Int.log 2 q) ≤
      q * (2:ℚ)^(52 - Int.log 2 q) :=
    mul_le_mul_of_nonneg_right hl (by positivity)
  have hx2 : (2:ℚ)^(Int.log 2 q) * (2:ℚ)^(52 - Int.log 2 q) = (2:ℚ)^(52:ℤ) := by
    rw [← zpow_add₀ (by norm_num : (2:ℚ) ≠ 0)]
    congr 1
    ring
  have hx3 : (1:ℚ) ≤ (2:ℚ)^(52:ℤ) := by norm_num
  have hge := rne_ge (q * (2:ℚ)^(52 - Int.log 2 q))
  have hm : (0:ℚ) < (rne (q * (2:ℚ)^(52 - Int.log 2 q)) : ℚ) := by linarith
  rw [fl64_spec q h0]
  exact mul_pos hm (by positivity)

lemma fl64_le_gen (q B : ℚ) (M : ℤ) (h0 : 0 < q) (hqB : q ≤ B)
    (hM : (M : ℚ) = B * (2:ℚ)^(52 - Int.log 2 q)) : fl64 q ≤ B := by
  have hx : q * (2:ℚ)^(52 - Int.log 2 q) ≤ (M:ℚ) := by
    rw [hM]
    exact mul_le_mul_of_nonneg_right hqB (by positivity)
  have h1 : (rne (q * (2:ℚ)^(52 - Int.log 2 q)) : ℚ) ≤ (M:ℚ) + 1/2 := by
    have h2 := rne_le (q * (2:ℚ)^(52 - Int.log 2 q))
    linarith
  have h3 : rne (q * (2:ℚ)^(52 - Int.log 2 q)) ≤ M := by
    have h4 : (rne (q * (2:ℚ)^(52 - Int.log 2 q)) : ℚ) < (M:ℚ) + 1 := by linarith
    have h5 : rne (q * (2:ℚ)^(52 - Int.log 2 q)) < M + 1 := by exact_mod_cast h4
    omega
  rw [fl64_spec q h0]
  calc (rne (q * (2:ℚ)^(52 - Int.log 2 q)) : ℚ) * (2:ℚ)^(Int.log 2 q - 52)
      ≤ (M:ℚ) * (2:ℚ)^(Int.log 2 q - 52) :=
        mul_le_mul_of_nonneg_right (by exact_mod_cast h3) (by positivity)
    _ = B * ((2:ℚ)^(52 - Int.log 2 q) * (2:ℚ)^(Int.log 2 q - 52)) := by
        rw [hM]
        ring
    _ = B := by rw [zpow_cancel, mul_one]

lemma cast_pow_toNat (k : ℤ) (hk : 0 ≤ k) :
    ((2 ^ k.toNat : ℤ) : ℚ) = (2:ℚ)^k := by
  have h1 : ((2 ^ k.toNat : ℤ) : ℚ) = (2:ℚ) ^ k.toNat := by
    push_cast
    ring
  rw [h1, ← zpow_natCast (2:ℚ) k.toNat, Int.toNat_of_nonneg hk]

lemma fl64_le_one (q : ℚ) (h1 : q ≤ 1) : fl64 q ≤ 1 := by
  rcases le_or_lt q 0 with h | h
  · rw [fl64_nonpos q h]
    norm_num
  · have he : Int.log 2 q ≤ 0 := by
      have h2 := Int.log_mono_right (b := 2) h h1
      rwa [Int.log_one_right] at h2
    refine fl64_le_gen q 1 (2 ^ (52 - Int.log 2 q).toNat) h h1 ?_
    rw [cast_pow_toNat _ (by omega), one_mul]

lemma log2_hundred : Int.log 2 (100:ℚ) = 6 :=
  log2q_unique 100 6 (by norm_num) (by norm_num)

lemma fl64_le_hundred (z : ℚ) (h1 : z ≤ 100) : fl64 z ≤ 100 := by
  rcases le_or_lt z 0 with h | h
  · rw [fl64_nonpos z h]
    norm_num
  · have he : Int.log 2 z ≤ 6 := by
      have h2 := Int.log_mono_right (b := 2) h h1
      rwa [log2_hundred] at h2
    refine fl64_le_gen z 100 (100 * 2 ^ (52 - Int.log 2 z).toNat) h h1 ?_
    have h3 : ((100 * 2 ^ (52 - Int.log 2 z).toNat : ℤ) : ℚ)
        = 100 * ((2 ^ (52 - Int.log 2 z).toNat : ℤ) : ℚ) := by
      push_cast
      ring
    rw [h3, cast_pow_toNat _ (by omega)]

lemma fl64_fix (q : ℚ) (m : ℤ) (h0 : 0 < q)
    (hq : (m : ℚ) = q * (2:ℚ)^(52 - Int.log 2 q)) : fl64 q = q := by
  rw [fl64_spec q h0, ← hq, rne_intCast, hq, mul_assoc, zpow_cancel, mul_one]

lemma fl64_one : fl64 (1:ℚ) = 1 := by
  refine fl64_fix 1 (2^52) one_pos ?_
  rw [Int.log_one_right, one_mul]
  norm_num

lemma fl64_hundred : fl64 (100:ℚ) = 100 := by
  refine fl64_fix 100 (100 * 2^46) (by norm_num) ?_
  rw [log2_hundred]
  norm_num

lemma fl64_err (q : ℚ) (h0 : 0 < q) :
    |fl64 q - q| ≤ (2:ℚ)^(Int.log 2 q - 53) := by
  rw [fl64_spec q h0]
  set L := Int.log 2 q with hL
  set x := q * (2:ℚ)^(52 - L) with hx
  have hq2 : q = x * (2:ℚ)^(L - 52) := by
    rw [hx, mul_assoc, zpow_cancel, mul_one]
  have hub := rne_le x
  have hlb := rne_ge x
  have habs : |(rne x : ℚ) - x| ≤ 1/2 :=
    abs_sub_le_iff.mpr ⟨by linarith, by linarith⟩
  have hps : (0:ℚ) < (2:ℚ)^(L - 52) := by positivity
  calc |(rne x : ℚ) * (2:ℚ)^(L - 52) - q|
      = |(rne x : ℚ) - x| * (2:ℚ)^(L - 52) := by
        conv_lhs => rw [hq2]
        rw [← sub_mul, abs_mul, abs_of_pos hps]
    _ ≤ (1/2) * (2:ℚ)^(L - 52) := mul_le_mul_of_nonneg_right habs hps.le
    _ = (2:ℚ)^(L - 53) := by
        rw [show (1:ℚ)/2 = (2:ℚ)^(-1:ℤ) by norm_num,
          ← zpow_add₀ (by norm_num : (2:ℚ) ≠ 0)]
        congr 1
        ring

lemma round_nonneg_q (z : ℚ) (h : 0 ≤ z) : 0 ≤ round z := by
  rw [round_eq]
  exact Int.floor_nonneg.mpr (by linarith)

lemma round_le_hundred (z : ℚ) (h : z ≤ 100) : round z ≤ 100 := by
  rw [round_eq]
  have h1 : ⌊z + 1/2⌋ ≤ ⌊(100:ℚ) + 1/2⌋ := Int.floor_mono (by linarith)
  have h2 : ⌊(100:ℚ) + 1/2⌋ = 100 := by norm_num
  omega

lemma round_diff_le (a b : ℚ) (h : |a - b| ≤ 1/4) : |round a - round b| ≤ 1 := by
  rw [abs_sub_le_iff] at h
  have key : ∀ u v : ℚ, u - v ≤ 1/4 → round u - round v ≤ 1 := by
    intro u v huv
    rw [round_eq, round_eq]
    have h1 : (⌊u + 1/2⌋ : ℚ) ≤ u + 1/2 := Int.floor_le _
    have h2 : v + 1/2 < ⌊v + 1/2⌋ + 1 := Int.lt_floor_add_one _
    have h5 : ((⌊u + 1/2⌋ - ⌊v + 1/2⌋ : ℤ) : ℚ) < 2 := by
      push_cast
      linarith
    have h6 : (⌊u + 1/2⌋ - ⌊v + 1/2⌋ : ℤ) < 2 := by exact_mod_cast h5
    omega
  have k1 := key a b h.1
  have k2 := key b a h.2
  exact abs_le.mpr ⟨by omega, by omega⟩

/-- A 40-session collection with exactly 23 completed sessions. -/
def demo40 : List Session :=
  List.replicate 23 demoSession ++
    List.replicate 17 { demoSession with completed := false }

/-- Claim C7 fails as stated: with IEEE binary64 arithmetic (as JavaScript
numbers use), 40 sessions with 23 completed display a rate of 57, because
the double value of `(23/40)*100` falls just below 57.5, while the claimed
exact `round(100*23/40) = round(57.5)` is 58. -/
theorem claim_C7_counterexample :
    completionRate demo40 ≠
        round ((100 * (completedCount demo40 : ℚ)) / (demo40.length : ℚ)) ∧
      completionRate demo40 = 57 ∧
      round ((100 * (completedCount demo40 : ℚ)) / (demo40.length : ℚ)) = 58 := by
  have hc : completedCount demo40 = 23 := by decide
  have hl : demo40.length = 40 := by decide
  have hlog1 : Int.log 2 ((23:ℚ)/40) = -1 := by
    refine log2q_unique _ _ ?_ ?_ <;> norm_num
  have hrne1 : rne ((23/40 : ℚ) * (2:ℚ)^(52 - (-1) : ℤ)) = 5179139571476070 := by
    refine rne_eval _ _ ?_ ?_ <;> norm_num
  have hy : fl64 ((23:ℚ)/40) = (5179139571476070 : ℚ) * (2:ℚ)^(-53 : ℤ) := by
    have h0 := fl64_eval ((23:ℚ)/40) (-1) 5179139571476070 (by norm_num) hlog1 hrne1
    rwa [show ((-1:ℤ) - 52) = (-53:ℤ) by norm_num] at h0
  have hz0 : fl64 ((23:ℚ)/40) * 100
      = (517913957147607000:ℚ) * (2:ℚ)^(-53:ℤ) := by
    rw [hy]
    ring
  have hlog2 : Int.log 2 ((517913957147607000:ℚ) * (2:ℚ)^(-53:ℤ)) = 5 := by
    refine log2q_unique _ _ ?_ ?_ <;> norm_num
  have hrne2 :
      rne ((517913957147607000:ℚ) * (2:ℚ)^(-53:ℤ) * (2:ℚ)^(52 - 5 : ℤ))
        = 8092405580431359 := by
    have harg : (517913957147607000:ℚ) * (2:ℚ)^(-53:ℤ) * (2:ℚ)^(52 - 5 : ℤ)
        = 517913957147607000 / 64 := by
      rw [mul_assoc, ← zpow_add₀ (by norm_num : (2:ℚ) ≠ 0)]
      norm_num
    rw [harg]
    refine rne_eval _ _ ?_ ?_ <;> norm_num
  have hz : fl64 (fl64 ((23:ℚ)/40) * 100)
      = (8092405580431359:ℚ) * (2:ℚ)^(-47:ℤ) := by
    rw [hz0]
    have h0 := fl64_eval _ 5 8092405580431359 (by positivity) hlog2 hrne2
    rwa [show ((5:ℤ) - 52) = (-47:ℤ) by norm_num] at h0
  have hround : round ((8092405580431359:ℚ) * (2:ℚ)^(-47:ℤ)) = 57 := by
    rw [round_eq]
    refine Int.floor_eq_iff.mpr ⟨?_, ?_⟩ <;> norm_num
  have hexact : round ((100 * (23:ℚ)) / 40) = 58 := by
    rw [round_eq]
    norm_num
  have hcr : completionRate demo40 = 57 := by
    unfold completionRate
    rw [if_neg (by rw [hl]; norm_num), hc, hl,
      show ((23:ℕ):ℚ) = 23 by norm_num, show ((40:ℕ):ℚ) = 40 by norm_num,
      hz, hround]
  have hre : round ((100 * (completedCount demo40 : ℚ)) / (demo40.length : ℚ))
      = 58 := by
    rw [hc, hl, show ((23:ℕ):ℚ) = 23 by norm_num,
      show ((40:ℕ):ℚ) = 40 by norm_num, hexact]
  exact ⟨by rw [hcr, hre]; norm_num, hcr, hre⟩

/-- Claim C7 (amended): the completion rate is the round-half-up of the
IEEE-binary64 evaluation of `(completed / total) * 100`; it always lies in
`[0, 100]`, is exactly 0 on the empty collection, is exactly 100 on every
non-empty fully-completed collection, and differs from the exact
`round(100 * completed / total)` by at most 1. -/
theorem claim_C7_completionRate (s : List Session) :
    completionRate [] = 0 ∧
      0 ≤ completionRate s ∧
      completionRate s ≤ 100 ∧
      (s ≠ [] →
        completionRate s =
          round (fl64 (fl64 ((completedCount s : ℚ) / (s.length : ℚ)) * 100))) ∧
      (s ≠ [] →
        |completionRate s -
            round ((100 * (completedCount s : ℚ)) / (s.length : ℚ))| ≤ 1) ∧
      (s ≠ [] → (∀ x ∈ s, x.completed = true) → completionRate s = 100) := by
  by_cases hs : s.length = 0
  · have hsn : s = [] := List.length_eq_zero.mp hs
    have h0 : completionRate s = 0 := by
      unfold completionRate
      rw [if_pos hs]
    refine ⟨rfl, by rw [h0], by rw [h0]; norm_num, ?_, ?_, ?_⟩
    · intro h
      exact absurd hsn h
    · intro h
      exact absurd hsn h
    · intro h
      exact absurd hsn h
  · have hn : 0 < s.length := Nat.pos_of_ne_zero hs
    have hnq : (0:ℚ) < (s.length : ℚ) := by exact_mod_cast hn
    have hrate : completionRate s
        = round (fl64 (fl64 ((completedCount s : ℚ) / (s.length : ℚ)) * 100)) := by
      unfold completionRate
      rw [if_neg hs]
    have hcle : (completedCount s : ℚ) ≤ (s.length : ℚ) := by
      exact_mod_cast completedCount_le_length s
    have hq1 : (completedCount s : ℚ) / (s.length : ℚ) ≤ 1 :=
      (div_le_one hnq).mpr hcle
    have hy1 : fl64 ((completedCount s : ℚ) / (s.length : ℚ)) ≤ 1 :=
      fl64_le_one _ hq1
    have hy0 : (0:ℚ) ≤ fl64 ((completedCount s : ℚ) / (s.length : ℚ)) :=
      fl64_nonneg _
    have hz100 : fl64 ((completedCount s : ℚ) / (s.length : ℚ)) * 100 ≤ 100 := by
      linarith
    have hw100 : fl64 (fl64 ((completedCount s : ℚ) / (s.length : ℚ)) * 100) ≤ 100 :=
      fl64_le_hundred _ hz100
    have hw0 : (0:ℚ) ≤ fl64 (fl64 ((completedCount s : ℚ) / (s.length : ℚ)) * 100) :=
      fl64_nonneg _
    refine ⟨rfl, ?_, ?_, fun _ => hrate, ?_, ?_⟩
    · rw [hrate]
      exact round_nonneg_q _ hw0
    · rw [hrate]
      exact round_le_hundred _ hw100
    · intro _
      rw [hrate]
      have hform : (100 * (completedCount s : ℚ)) / (s.length : ℚ)
          = ((completedCount s : ℚ) / (s.length : ℚ)) * 100 := by ring
      rw [hform]
      by_cases hc : completedCount s = 0
      · have hq00 : (completedCount s : ℚ) / (s.length : ℚ) = 0 := by
          rw [hc]
          norm_num
        rw [hq00, fl64_nonpos 0 le_rfl, zero_mul, fl64_nonpos 0 le_rfl, round_zero]
        norm_num
      · have hc0 : (0:ℚ) < (completedCount s : ℚ) := by
          exact_mod_cast Nat.pos_of_ne_zero hc
        have hqpos : (0:ℚ) < (completedCount s : ℚ) / (s.length : ℚ) :=
          div_pos hc0 hnq
        have he1 : Int.log 2 ((completedCount s : ℚ) / (s.length : ℚ)) ≤ 0 := by
          have h2 := Int.log_mono_right (b := 2) hqpos hq1
          rwa [Int.log_one_right] at h2
        have herr1 : |fl64 ((completedCount s : ℚ) / (s.length : ℚ))
            - (completedCount s : ℚ) / (s.length : ℚ)| ≤ (2:ℚ)^(-53:ℤ) :=
          le_trans (fl64_err _ hqpos)
            (zpow_le_zpow_right₀ one_le_two (by omega))
        have hypos : (0:ℚ) < fl64 ((completedCount s : ℚ) / (s.length : ℚ)) :=
          fl64_pos _ hqpos
        have hzpos : (0:ℚ) < fl64 ((completedCount s : ℚ) / (s.length : ℚ)) * 100 := by
          linarith
        have he2 : Int.log 2 (fl64 ((completedCount s : ℚ) / (s.length : ℚ)) * 100) ≤ 6 := by
          have h2 := Int.log_mono_right (b := 2) hzpos hz100
          rwa [log2_hundred] at h2
        have herr2 : |fl64 (fl64 ((completedCount s : ℚ) / (s.length : ℚ)) * 100)
            - fl64 ((completedCount s : ℚ) / (s.length : ℚ)) * 100| ≤ (2:ℚ)^(-47:ℤ) :=
          le_trans (fl64_err _ hzpos)
            (zpow_le_zpow_right₀ one_le_two (by omega))
        have herrz : |fl64 ((completedCount s : ℚ) / (s.length : ℚ)) * 100
            - ((completedCount s : ℚ) / (s.length : ℚ)) * 100| ≤ (2:ℚ)^(-46:ℤ) := by
          rw [← sub_mul, abs_mul, show |(100:ℚ)| = 100 by norm_num]
          calc |fl64 ((completedCount s : ℚ) / (s.length : ℚ))
                - (completedCount s : ℚ) / (s.length : ℚ)| * 100
              ≤ (2:ℚ)^(-53:ℤ) * 100 :=
                mul_le_mul_of_nonneg_right herr1 (by norm_num)
            _ ≤ (2:ℚ)^(-46:ℤ) := by norm_num
        have htri := abs_sub_le
          (fl64 (fl64 ((completedCount s : ℚ) / (s.length : ℚ)) * 100))
          (fl64 ((completedCount s : ℚ) / (s.length : ℚ)) * 100)
          (((completedCount s : ℚ) / (s.length : ℚ)) * 100)
        have hnum : (2:ℚ)^(-47:ℤ) + (2:ℚ)^(-46:ℤ) ≤ 1/4 := by norm_num
        refine round_diff_le _ _ ?_
        linarith
    · intro hne hall
      have hfull : completedCount s = s.length := by
        unfold completedCount
        rw [List.filter_eq_self.mpr (fun a ha => by simpa using hall a ha)]
      have hq1e : (completedCount s : ℚ) / (s.length : ℚ) = 1 := by
        rw [hfull]
        exact div_self (ne_of_gt hnq)
      rw [hrate, hq1e, fl64_one, one_mul, fl64_hundred]
      rw [show (100:ℚ) = ((100:ℤ):ℚ) by norm_num, round_intCast]

theorem claim_C7_completionRate_witness :
    [demoSession] ≠ ([] : List Session) ∧
      (∀ x ∈ [demoSession], x.completed = true) ∧
      completionRate [demoSession] = 100 :=
  ⟨by decide, by decide,
    (claim_C7_completionRate [demoSession]).2.2.2.2.2 (by decide) (by decide)⟩

lemma day_mem_DAYS (d : DayKey) : d ∈ DAYS := by
  cases d <;> decide

lemma orderedInsert_append_left (x : Session) (A rest : List Session)
    (hA : ∀ a ∈ A, ¬ sessLe x a) :
    (A ++ rest).orderedInsert sessLe x = A ++ rest.orderedInsert sessLe x := by
  induction A with
  | nil => rfl
  | cons a A ih =>
    have hxa : ¬ sessLe x a := hA a (List.mem_cons_self a A)
    simp only [List.cons_append, List.orderedInsert, if_neg hxa,
      List.append_eq]
    rw [ih fun b hb => hA b (List.mem_cons_of_mem a hb)]

lemma orderedInsert_bucket_append (x : Session) (m B : List Session)
    (hm : ∀ y ∈ m, (sessLe x y ↔ startLe x y))
    (hB : ∀ b ∈ B, sessLe x b) :
    (m ++ B).orderedInsert sessLe x = m.orderedInsert startLe x ++ B := by
  induction m with
  | nil =>
    cases B with
    | nil => rfl
    | cons b B =>
      simp only [List.nil_append, List.orderedInsert,
        if_pos (hB b (List.mem_cons_self b B))]
      rfl
  | cons y m ih =>
    by_cases hxy : startLe x y
    · have hxy2 : sessLe x y := (hm y (List.mem_cons_self y m)).mpr hxy
      simp only [List.cons_append, List.orderedInsert, if_pos hxy2,
        if_pos hxy, List.append_eq]
    · have hxy2 : ¬ sessLe x y := fun h => hxy ((hm y (List.mem_cons_self y m)).mp h)
      simp only [List.cons_append, List.orderedInsert, if_neg hxy2,
        if_neg hxy, List.append_eq]
      rw [ih fun z hz => hm z (List.mem_cons_of_mem y hz)]

lemma dayBucket_nil (d : DayKey) : dayBucket [] d = [] :=
  rfl

lemma dayBucket_cons_ne (x : Session) (t : List Session) (d : DayKey)
    (h : ¬ x.day = d) : dayBucket (x :: t) d = dayBucket t d := by
  simp [dayBucket, List.filter_cons, h]

lemma dayBucket_cons_self (x : Session) (t : List Session) :
    dayBucket (x :: t) x.day = (dayBucket t x.day).orderedInsert startLe x := by
  simp [dayBucket, List.filter_cons, List.insertionSort]

lemma day_eq_of_mem_dayBucket {s : List Session} {d : DayKey} {x : Session}
    (hx : x ∈ dayBucket s d) : x.day = d := by
  have h1 : x ∈ s.filter fun y => y.day = d :=
    (List.mem_insertionSort startLe).mp hx
  have h2 := List.mem_filter.mp h1
  simpa using h2.2

/-- The concatenation of the day buckets over a list of days. -/
def bucketsConcat (ds : List DayKey) (s : List Session) : List Session :=
  (ds.map fun d => dayBucket s d).flatten

lemma bucketsConcat_cons_day (d : DayKey) (ds : List DayKey)
    (s : List Session) :
    bucketsConcat (d :: ds) s = dayBucket s d ++ bucketsConcat ds s := by
  simp [bucketsConcat]

lemma bucketsConcat_append_days (ds1 ds2 : List DayKey) (s : List Session) :
    bucketsConcat (ds1 ++ ds2) s = bucketsConcat ds1 s ++ bucketsConcat ds2 s := by
  simp [bucketsConcat]

lemma bucketsConcat_nil (ds : List DayKey) : bucketsConcat ds [] = [] := by
  induction ds with
  | nil => rfl
  | cons d ds ih =>
    rw [bucketsConcat_cons_day, dayBucket_nil, ih]
    rfl

lemma bucketsConcat_cons_not_mem (x : Session) (t : List Session)
    (ds : List DayKey) (h : x.day ∉ ds) :
    bucketsConcat ds (x :: t) = bucketsConcat ds t := by
  induction ds with
  | nil => rfl
  | cons d ds ih =>
    rw [bucketsConcat_cons_day, bucketsConcat_cons_day,
      dayBucket_cons_ne x t d (fun he => h (he ▸ List.mem_cons_self d ds)),
      ih fun hm => h (List.mem_cons_of_mem d hm)]

lemma day_mem_of_mem_bucketsConcat {ds : List DayKey} {s : List Session}
    {x : Session} (hx : x ∈ bucketsConcat ds s) : x.day ∈ ds := by
  simp only [bucketsConcat, List.mem_flatten, List.mem_map] at hx
  obtain ⟨l, ⟨d, hd, rfl⟩, hxl⟩ := hx
  exact (day_eq_of_mem_dayBucket hxl) ▸ hd

/-- Stable-sort decomposition: concatenating the per-day buckets over a
strictly day-ordered day list that covers the collection reproduces the
collection sorted by `(day, start)`. -/
lemma bucketsConcat_eq_insertionSort :
    ∀ (s : List Session) (ds : List DayKey),
      ds.Pairwise (fun d1 d2 => dayIdx d1 < dayIdx d2) →
      (∀ y ∈ s, y.day ∈ ds) →
      bucketsConcat ds s = s.insertionSort sessLe := by
  intro s
  induction s with
  | nil =>
    intro ds _ _
    exact bucketsConcat_nil ds
  | cons x t ih =>
    intro ds hpw hmem
    obtain ⟨ds1, ds2, hds⟩ := List.append_of_mem (hmem x (List.mem_cons_self x t))
    subst hds
    rw [List.pairwise_append] at hpw
    obtain ⟨hp1, hp2, hcross⟩ := hpw
    rw [List.pairwise_cons] at hp2
    obtain ⟨hlt2, hp2t⟩ := hp2
    have hlt1 : ∀ d ∈ ds1, dayIdx d < dayIdx x.day :=
      fun d hd => hcross d hd x.day (List.mem_cons_self _ _)
    have hmem_t : ∀ y ∈ t, y.day ∈ ds1 ++ x.day :: ds2 :=
      fun y hy => hmem y (List.mem_cons_of_mem x hy)
    have hnot1 : x.day ∉ ds1 := fun hm => lt_irrefl _ (hlt1 x.day hm)
    have hnot2 : x.day ∉ ds2 := fun hm => lt_irrefl _ (hlt2 x.day hm)
    rw [bucketsConcat_append_days, bucketsConcat_cons_day,
      bucketsConcat_cons_not_mem x t ds1 hnot1,
      bucketsConcat_cons_not_mem x t ds2 hnot2,
      dayBucket_cons_self]
    have hRHS : (x :: t).insertionSort sessLe
        = (bucketsConcat (ds1 ++ x.day :: ds2) t).orderedInsert sessLe x := by
      simp only [List.insertionSort]
      rw [ih (ds1 ++ x.day :: ds2)
        (List.pairwise_append.mpr ⟨hp1, List.pairwise_cons.mpr ⟨hlt2, hp2t⟩, hcross⟩)
        hmem_t]
    rw [hRHS, bucketsConcat_append_days, bucketsConcat_cons_day]
    rw [orderedInsert_append_left x (bucketsConcat ds1 t) _ ?hA]
    case hA =>
      intro a ha
      have hda := day_mem_of_mem_bucketsConcat ha
      have hlt := hlt1 a.day hda
      intro hc
      rcases hc with h | ⟨heq, _⟩
      · omega
      · rw [heq] at hlt
        omega
    rw [orderedInsert_bucket_append x (dayBucket t x.day) (bucketsConcat ds2 t)
      ?hm ?hB]
    case hm =>
      intro y hy
      have hdy : y.day = x.day := day_eq_of_mem_dayBucket hy
      constructor
      · intro h
        rcases h with h | ⟨_, hs⟩
        · rw [hdy] at h
          exact absurd h (lt_irrefl _)
        · exact hs
      · intro h
        exact Or.inr ⟨hdy.symm, h⟩
    case hB =>
      intro b hb
      have hdb := day_mem_of_mem_bucketsConcat hb
      exact Or.inl (hlt2 b.day hdb)

lemma sortedSessions_sortSessions (s : List Session) :
    SortedSessions (sortSessions s) :=
  List.sorted_insertionSort sessLe s

lemma sortedSessions_filter (p : Session → Bool) {s : List Session}
    (h : SortedSessions s) : SortedSessions (s.filter p) :=
  List.Pairwise.sublist (List.filter_sublist s) h

lemma sortedSessions_toggle (i : String) {s : List Session}
    (h : SortedSessions s) : SortedSessions (toggleCompleted i s) := by
  have hf : ∀ y : Session,
      ((if y.id = i then { y with completed := !y.completed } else y).day
          = y.day) ∧
        ((if y.id = i then { y with completed := !y.completed } else y).start
          = y.start) := by
    intro y
    split <;> exact ⟨rfl, rfl⟩
  refine List.pairwise_map.mpr (h.imp ?_)
  intro a b hab
  rcases hab with h1 | ⟨h1, h2⟩
  · refine Or.inl ?_
    rw [(hf a).1, (hf b).1]
    exact h1
  · refine Or.inr ⟨?_, ?_⟩
    · rw [(hf a).1, (hf b).1]
      exact h1
    · rw [(hf a).2, (hf b).2]
      exact h2

/-- The `(day index, start characters)` sort key of a session. -/
def sessKey (x : Session) : Nat × List Char :=
  (dayIdx x.day, x.start.data)

lemma dayIdx_inj {a b : DayKey} (h : dayIdx a = dayIdx b) : a = b := by
  revert h
  cases a <;> cases b <;> simp [dayIdx]

lemma sessLe_iff_key (a b : Session) :
    sessLe a b ↔
      (sessKey a).1 < (sessKey b).1 ∨
        ((sessKey a).1 = (sessKey b).1 ∧ (sessKey a).2 ≤ (sessKey b).2) := by
  unfold sessLe sessKey strLe
  constructor
  · rintro (h | ⟨h, hs⟩)
    · exact Or.inl h
    · exact Or.inr ⟨by rw [h], hs⟩
  · rintro (h | ⟨h, hs⟩)
    · exact Or.inl h
    · exact Or.inr ⟨dayIdx_inj h, hs⟩

lemma sorted_suggestBalancedWeek (gen : Nat → String) :
    SortedSessions (suggestBalancedWeek gen) := by
  have hkey : (suggestBalancedWeek gen).map sessKey =
      [(0, "06:30".data), (1, "07:00".data), (2, "18:00".data),
       (3, "09:00".data), (4, "08:30".data), (5, "10:00".data)] := rfl
  have h2 : List.Pairwise
      (fun p q : Nat × List Char => p.1 < q.1 ∨ (p.1 = q.1 ∧ p.2 ≤ q.2))
      ((suggestBalancedWeek gen).map sessKey) := by
    rw [hkey]
    decide
  have h3 := List.pairwise_map.mp h2
  exact h3.imp fun hab => (sessLe_iff_key _ _).mpr hab

lemma sorted_loadSessions {slot : Option Blob} (h : SlotInv slot)
    (gen : Nat → String) : SortedSessions (loadSessions slot gen) := by
  match slot with
  | none => exact sorted_suggestBalancedWeek gen
  | some .emptyString => exact sorted_suggestBalancedWeek gen
  | some .corrupt => exact sorted_suggestBalancedWeek gen
  | some (.good l) =>
    obtain ⟨m, hm, rfl⟩ := h
    show SortedSessions (normalizeList gen 0 (m.map toRaw))
    rw [normalizeList_map_toRaw]
    exact hm

lemma slotInv_persist (s : List Session) (h : SortedSessions s) :
    SlotInv (persistSlot s) := by
  unfold persistSlot
  split
  · trivial
  · exact ⟨s, h, rfl⟩

lemma inv_afterOp {s2 : List Session} (h : SortedSessions s2) :
    Inv (afterOp s2) :=
  ⟨h, slotInv_persist s2 h⟩

lemma inv_step {st st2 : StoreState} (h : Inv st) (hs : Step st st2) :
    Inv st2 := by
  cases hs with
  | create gid d => exact inv_afterOp (sortedSessions_sortSessions _)
  | update eid d => exact inv_afterOp (sortedSessions_sortSessions _)
  | remove i => exact inv_afterOp (sortedSessions_filter _ h.1)
  | toggle i => exact inv_afterOp (sortedSessions_toggle i h.1)
  | replaceAll gen => exact inv_afterOp (sorted_suggestBalancedWeek gen)
  | load gen => exact inv_afterOp (sorted_loadSessions h.2 gen)

/-- Claim C1: after any sequence of store operations (create, update,
remove, toggleCompleted, replaceAll via auto-balance, load) from an initial
app state, the observed collection is sorted by day index in
Monday-to-Sunday order, ties broken lexicographically on the `HH:MM` start
string. -/
theorem claim_C1_store_sorted (st : StoreState) (h : Reachable st) :
    SortedSessions st.sessions := by
  obtain ⟨st0, ⟨h0s, h0slot⟩, hsteps⟩ := h
  have hinv0 : Inv st0 := by
    constructor
    · rw [h0s]
      exact List.sorted_nil
    · rcases h0slot with h | h | h <;> rw [h] <;> trivial
  have hinv : Inv st := by
    induction hsteps with
    | refl => exact hinv0
    | tail _ hstep ih => exact inv_step ih hstep
  exact hinv.1

theorem claim_C1_store_sorted_witness :
    SortedSessions (afterOp (suggestBalancedWeek fun _ => "id")).sessions :=
  claim_C1_store_sorted _
    ⟨{ sessions := [], slot := none }, ⟨rfl, Or.inl rfl⟩,
      Relation.ReflTransGen.single
        (Step.replaceAll { sessions := [], slot := none } fun _ => "id")⟩

/-- Claim C5: `byDay` has exactly seven entries in fixed Monday-to-Sunday
order, each bucket is sorted by start time and holds exactly the sessions
of its day, and the concatenation of the buckets equals the input sorted by
`(day, start)` (hence every session lands in exactly one bucket). -/
theorem claim_C5_groupByDay (s : List Session) (d : DayKey) :
    (byDay s).length = 7 ∧
      (byDay s).map Prod.fst = DAYS ∧
      (dayBucket s d).Sorted startLe ∧
      (∀ x ∈ dayBucket s d, x.day = d) ∧
      ((byDay s).map Prod.snd).flatten = sortSessions s ∧
      (((byDay s).map Prod.snd).flatten).Perm s := by
  have hsnd : (byDay s).map Prod.snd = DAYS.map fun d => dayBucket s d := by
    simp [byDay, List.map_map, Function.comp_def]
  have hflat : ((byDay s).map Prod.snd).flatten = sortSessions s := by
    rw [hsnd]
    exact bucketsConcat_eq_insertionSort s DAYS (by decide)
      fun y _ => day_mem_DAYS y.day
  refine ⟨?_, ?_, List.sorted_insertionSort startLe _,
    fun x hx => day_eq_of_mem_dayBucket hx, hflat, ?_⟩
  · simp [byDay, DAYS]
  · simp [byDay, List.map_map, Function.comp_def]
  · rw [hflat]
    exact List.perm_insertionSort sessLe s

theorem claim_C5_groupByDay_witness :
    demoSession.day = DayKey.Tuesday :=
  (claim_C5_groupByDay [demoSession] .Tuesday).2.2.2.1 demoSession (by decide)

/-- Claim C9: on a collection satisfying the store's sort invariant, the
mutators given an id not present in the collection are no-ops: update,
remove and toggleCompleted all return the collection unchanged. -/
theorem claim_C9_unknown_id_noop (s : List Session) (i : String) (d : Draft)
    (hid : ∀ x ∈ s, x.id ≠ i) (hs : SortedSessions s) :
    submitUpdate i d s = s ∧ handleDelete i s = s ∧ toggleCompleted i s = s := by
  have hmap : ∀ f : Session → Session, (∀ x ∈ s, f x = x) → s.map f = s := by
    intro f hf
    rw [List.map_congr_left hf, List.map_id']
  refine ⟨?_, ?_, ?_⟩
  · unfold submitUpdate
    rw [hmap _ fun x hx => if_neg (hid x hx)]
    exact List.Sorted.insertionSort_eq hs
  · unfold handleDelete
    refine List.filter_eq_self.mpr ?_
    intro x hx
    simpa using hid x hx
  · unfold toggleCompleted
    exact hmap _ fun x hx => if_neg (hid x hx)

theorem claim_C9_unknown_id_noop_witness :
    submitUpdate "zz" demoDraft [demoSession] = [demoSession] ∧
      handleDelete "zz" [demoSession] = [demoSession] ∧
      toggleCompleted "zz" [demoSession] = [demoSession] :=
  claim_C9_unknown_id_noop [demoSession] "zz" demoDraft (by decide)
    (List.sorted_singleton demoSession)

end GymScheduler
